import Mathlib

/-!
Shallow embedding of `breakc.py`, a tool that reads IPv4 addresses, sorts
them numerically, and fills small gaps between consecutive addresses in the
same /24 network.

Python strings are modelled as lists of characters (`PyStr`); fallible
operations (Python exceptions) return `Option`; Python's unbounded integers
are `Nat` (or `Int` where subtraction may go negative, as in the `diff`
computation of `process_ips`).
-/

namespace Breakc

/-- Python strings are modelled as lists of characters. -/
abbrev PyStr := List Char

/-- Python `s.split(sep)` for a single-character separator: the result always
has one more part than the number of separator occurrences, and empty parts
are kept (`"".split('.') == [""]`). -/
def pySplit (sep : Char) : PyStr → List PyStr
  | [] => [[]]
  | c :: cs =>
    match pySplit sep cs with
    | [] => [[]]
    | p :: ps => if c = sep then [] :: p :: ps else (c :: p) :: ps

/-- Numeric value of a decimal digit character. -/
def digitVal (c : Char) : Nat := c.toNat - 48

/-- Decimal value of an all-digit string, as Python `int(part)` computes it. -/
def digitsToNat (s : PyStr) : Nat := s.foldl (fun acc c => acc * 10 + digitVal c) 0

/-- Python `int(s)`, restricted to unsigned decimal digit strings: succeeds
exactly on nonempty all-digit (ASCII) strings, the only shapes this program
feeds it; everything else raises `ValueError`, modelled as `none`. -/
def pyInt (s : PyStr) : Option Nat :=
  if s.isEmpty then none
  else if s.all Char.isDigit then some (digitsToNat s)
  else none

/-- Decimal digit character for `n < 10`. -/
def digitChar (n : Nat) : Char := Char.ofNat (48 + n)

/-- Helper for decimal rendering, by repeated division; `fuel` bounds the
recursion and `n + 1` always suffices. -/
def natToDigitsAux : Nat → Nat → PyStr → PyStr
  | 0, _, acc => acc
  | fuel + 1, n, acc =>
    let acc' := digitChar (n % 10) :: acc
    if n < 10 then acc' else natToDigitsAux fuel (n / 10) acc'

/-- Decimal rendering of a natural number: the f-string `{n}` formatting. -/
def natToDigits (n : Nat) : PyStr := natToDigitsAux (n + 1) n []

/-- `ip_to_int`: split on `'.'`, require exactly 4 parts (else `ValueError`,
modelled as `none`; `int(part)` may also raise, likewise `none`), and combine
the four parts' integer values big-endian.  No octet-range check. -/
def ip_to_int (ip : PyStr) : Option Nat :=
  match pySplit '.' ip with
  | [p0, p1, p2, p3] => do
    let a ← pyInt p0
    let b ← pyInt p1
    let c ← pyInt p2
    let d ← pyInt p3
    pure ((a <<< 24) + (b <<< 16) + (c <<< 8) + d)
  | _ => none

/-- `int_to_ip`: format the four bytes obtained by shifting and masking
with 255, joined by dots. -/
def int_to_ip (ip_int : Nat) : PyStr :=
  natToDigits ((ip_int >>> 24) &&& 255) ++ '.' ::
    (natToDigits ((ip_int >>> 16) &&& 255) ++ '.' ::
      (natToDigits ((ip_int >>> 8) &&& 255) ++ '.' :: natToDigits (ip_int &&& 255)))

/-- Evaluate `f` over a list, failing if any element fails: the Python list
comprehension `[f(x) for x in xs]` where an exception aborts the whole thing. -/
def optMap (f : α → Option β) : List α → Option (List β)
  | [] => some []
  | a :: as => do
    let b ← f a
    let bs ← optMap f as
    pure (b :: bs)

/-- `sort_ips`: convert every address to its integer, sort ascending
(`list.sort`), convert each integer back to an address string. -/
def sort_ips (ip_list : List PyStr) : Option (List PyStr) := do
  let ip_ints ← optMap ip_to_int ip_list
  pure ((ip_ints.mergeSort (fun a b => decide (a ≤ b))).map int_to_ip)

/-- `generate_ip_range`: every address from `start_ip` to `end_ip` inclusive;
Python `range(start, end + 1)` is empty when `end + 1 ≤ start`. -/
def generate_ip_range (start_ip end_ip : PyStr) : Option (List PyStr) := do
  let start_int ← ip_to_int start_ip
  let end_int ← ip_to_int end_ip
  pure ((List.range' start_int (end_int + 1 - start_int)).map int_to_ip)

/-- Python `'.'.join(parts)`. -/
def joinDots : List PyStr → PyStr
  | [] => []
  | [p] => p
  | p :: ps => p ++ '.' :: joinDots ps

/-- The /24 network of an address: `'.'.join(ip.split('.')[:3])`. -/
def network (ip : PyStr) : PyStr := joinDots ((pySplit '.' ip).take 3)

/-- Closing a segment in `process_ips`: a single address when the segment is
degenerate (`start_ip == end_ip`), else the whole inclusive range. -/
def closeSeg (start_ip end_ip : PyStr) : Option (List PyStr) :=
  if start_ip = end_ip then some [start_ip] else generate_ip_range start_ip end_ip

/-- The `for` loop of `process_ips`, with its five loop variables explicit.
When the current address has the same /24 network as the previous one and
`0 < diff <= 6` the current segment's end is extended; otherwise the segment
is emitted and a new one starts at the current address. -/
def processLoop (previous_ip : PyStr) (previous_int : Nat)
    (start_ip end_ip : PyStr) (result : List PyStr) :
    List PyStr → Option (List PyStr)
  | [] => do
    let seg ← closeSeg start_ip end_ip
    pure (result ++ seg)
  | current_ip :: rest => do
    let current_int ← ip_to_int current_ip
    if network current_ip = network previous_ip ∧
        0 < (current_int : Int) - (previous_int : Int) ∧
        (current_int : Int) - (previous_int : Int) ≤ 6 then
      processLoop current_ip current_int start_ip current_ip result rest
    else do
      let seg ← closeSeg start_ip end_ip
      processLoop current_ip current_int current_ip current_ip (result ++ seg) rest

/-- `process_ips`: scan the sorted list, accumulating segments and emitting
them (expanded when non-degenerate) as they close. -/
def process_ips (sorted_ips : List PyStr) : Option (List PyStr) :=
  match sorted_ips with
  | [] => some []
  | first :: rest => do
    let first_int ← ip_to_int first
    processLoop first first_int first first [] rest

/-- Python `str.strip()`: remove leading and trailing whitespace. -/
def pyStrip (s : PyStr) : PyStr :=
  ((s.dropWhile Char.isWhitespace).reverse.dropWhile Char.isWhitespace).reverse

/-- The Reader's per-line validity test: exactly 4 dot-separated parts, each
nonempty, all digits, and at most 255. -/
def validIP (ip : PyStr) : Bool :=
  let parts := pySplit '.' ip
  parts.length == 4 &&
    parts.all fun part =>
      !part.isEmpty && part.all Char.isDigit && decide (digitsToNat part ≤ 255)

/-- `read_ip_file`, modelled on the sequence of lines of the file (the file
I/O itself is elided): strip each line, skip blanks, keep exactly the lines
passing the validity test, preserving order; invalid lines are discarded
(with a warning printed, not modelled). -/
def read_ip_lines : List PyStr → List PyStr
  | [] => []
  | line :: rest =>
    let ip := pyStrip line
    if ip.isEmpty then read_ip_lines rest
    else if validIP ip then ip :: read_ip_lines rest
    else read_ip_lines rest

/-- Underlying integer value of an address string (0 if conversion fails; it
never fails on the strings this program produces or validates). -/
def ipVal (s : PyStr) : Nat := (ip_to_int s).getD 0

/-! ### Lemmas about splitting -/

theorem pySplit_ne_nil (sep : Char) (s : PyStr) : pySplit sep s ≠ [] := by
  cases s with
  | nil => simp [pySplit]
  | cons c cs =>
    simp only [pySplit]
    rcases h : pySplit sep cs with _ | ⟨p, ps⟩
    · simp
    · by_cases hc : c = sep <;> simp [hc]

theorem pySplit_no_sep {sep : Char} {s : PyStr} (h : sep ∉ s) : pySplit sep s = [s] := by
  induction s with
  | nil => rfl
  | cons c cs ih =>
    have hc : ¬ c = sep := by
      rintro rfl
      exact h (List.mem_cons_self _ _)
    have hcs : sep ∉ cs := fun hm => h (List.mem_cons_of_mem _ hm)
    simp [pySplit, ih hcs, hc]

theorem pySplit_append {sep : Char} {xs : PyStr} (ys : PyStr) (h : sep ∉ xs) :
    pySplit sep (xs ++ sep :: ys) = xs :: pySplit sep ys := by
  induction xs with
  | nil =>
    simp only [List.nil_append, pySplit]
    rcases hr : pySplit sep ys with _ | ⟨p, ps⟩
    · exact absurd hr (pySplit_ne_nil sep ys)
    · simp
  | cons c cs ih =>
    have hc : ¬ c = sep := by
      rintro rfl
      exact h (List.mem_cons_self _ _)
    have hcs : sep ∉ cs := fun hm => h (List.mem_cons_of_mem _ hm)
    simp only [List.cons_append, pySplit, List.append_eq]
    rw [ih hcs]
    simp [hc]

/-! ### Facts about the decimal rendering of octets, settled by enumeration -/

set_option maxRecDepth 8000 in
theorem octet_facts : ∀ m, m < 256 →
    pyInt (natToDigits m) = some m ∧ '.' ∉ natToDigits m := by decide

theorem and255_eq_mod (m : Nat) : m &&& 255 = m % 256 :=
  Nat.and_pow_two_sub_one_eq_mod m 8

/-- Core roundtrip: converting a 32-bit value to dotted-quad text and back is
the identity. -/
theorem ip_to_int_int_to_ip {x : Nat} (hx : x < 2 ^ 32) :
    ip_to_int (int_to_ip x) = some x := by
  have hlt : ∀ m : Nat, m &&& 255 < 256 := fun m => by
    rw [and255_eq_mod]
    exact Nat.mod_lt _ (by norm_num)
  obtain ⟨f0, g0⟩ := octet_facts _ (hlt (x >>> 24))
  obtain ⟨f1, g1⟩ := octet_facts _ (hlt (x >>> 16))
  obtain ⟨f2, g2⟩ := octet_facts _ (hlt (x >>> 8))
  obtain ⟨f3, g3⟩ := octet_facts _ (hlt x)
  unfold int_to_ip ip_to_int
  rw [pySplit_append _ g0, pySplit_append _ g1, pySplit_append _ g2, pySplit_no_sep g3]
  simp only [f0, f1, f2, f3, Option.bind_eq_bind, Option.some_bind, Option.pure_def]
  refine congrArg some ?_
  simp only [Nat.shiftLeft_eq, Nat.shiftRight_eq_div_pow, and255_eq_mod]
  norm_num
  omega

/-! ### Validity of Reader-accepted addresses -/

theorem length_eq_four {l : List α} : l.length = 4 ↔ ∃ a b c d, l = [a, b, c, d] := by
  constructor
  · intro h
    rcases l with _ | ⟨a, _ | ⟨b, _ | ⟨c, _ | ⟨d, _ | ⟨e, t⟩⟩⟩⟩⟩ <;> simp_all
  · rintro ⟨a, b, c, d, rfl⟩
    rfl

/-- A Reader-valid address splits into exactly four parts, each of which
`int()` accepts with a value at most 255. -/
theorem validIP_parts {s : PyStr} (h : validIP s = true) :
    ∃ p0 p1 p2 p3, pySplit '.' s = [p0, p1, p2, p3] ∧
      ∀ p ∈ pySplit '.' s, pyInt p = some (digitsToNat p) ∧ digitsToNat p ≤ 255 := by
  unfold validIP at h
  simp only [Bool.and_eq_true, beq_iff_eq, List.all_eq_true] at h
  obtain ⟨hlen, hall⟩ := h
  obtain ⟨p0, p1, p2, p3, hps⟩ := length_eq_four.mp hlen
  refine ⟨p0, p1, p2, p3, hps, fun p hp => ?_⟩
  have hq := hall p hp
  simp only [Bool.and_eq_true, Bool.not_eq_true', decide_eq_true_eq] at hq
  obtain ⟨⟨hne, hdig⟩, hle⟩ := hq
  refine ⟨?_, hle⟩
  unfold pyInt
  simp [hne]
  exact hdig

/-- `ip_to_int` succeeds on every Reader-valid address and yields a 32-bit
value. -/
theorem validIP_ip_to_int {s : PyStr} (h : validIP s = true) :
    ∃ v, ip_to_int s = some v ∧ v < 2 ^ 32 := by
  obtain ⟨p0, p1, p2, p3, hps, hall⟩ := validIP_parts h
  have h0 := hall p0 (by rw [hps]; simp)
  have h1 := hall p1 (by rw [hps]; simp)
  have h2 := hall p2 (by rw [hps]; simp)
  have h3 := hall p3 (by rw [hps]; simp)
  refine ⟨(digitsToNat p0 <<< 24) + (digitsToNat p1 <<< 16) +
    (digitsToNat p2 <<< 8) + digitsToNat p3, ?_, ?_⟩
  · unfold ip_to_int
    rw [hps]
    simp [h0.1, h1.1, h2.1, h3.1]
  · have b0 := h0.2
    have b1 := h1.2
    have b2 := h2.2
    have b3 := h3.2
    simp only [Nat.shiftLeft_eq]
    norm_num
    omega

/-! ### Claim C5 -/

/-- C5: for every integer x in [0, 2^32-1], `ip_to_int (int_to_ip x) = x`:
converting a 32-bit value to dotted-quad and back is the identity. -/
theorem claim_C5_int_roundtrip (x : Nat) (hx : x < 2 ^ 32) :
    ip_to_int (int_to_ip x) = some x :=
  ip_to_int_int_to_ip hx

theorem claim_C5_witness :
    3232235777 < 2 ^ 32 ∧ ip_to_int (int_to_ip 3232235777) = some 3232235777 :=
  ⟨by norm_num, claim_C5_int_roundtrip 3232235777 (by norm_num)⟩

/-! ### Claim C6 (corrected) -/

/-- C6 fails as stated: `"001.002.003.004"` meets the Reader's validity
criterion, but converting it to its integer and back yields the canonical
rendering `"1.2.3.4"`, not the original string. -/
theorem claim_C6_counterexample :
    validIP "001.002.003.004".data = true ∧
    ip_to_int "001.002.003.004".data = some 16909060 ∧
    int_to_ip 16909060 ≠ "001.002.003.004".data := by decide

/-- C6 (amended): for every valid dotted-quad string s in canonical form
(s is the rendering `int_to_ip x` of some 32-bit value x, i.e. no octet has
leading zeros), converting s to its integer and back reproduces s. -/
theorem claim_C6_canonical_roundtrip (s : PyStr) (x : Nat) (hx : x < 2 ^ 32)
    (hs : s = int_to_ip x) : (ip_to_int s).map int_to_ip = some s := by
  subst hs
  rw [ip_to_int_int_to_ip hx]
  rfl

theorem claim_C6_witness :
    (ip_to_int "1.2.3.4".data).map int_to_ip = some "1.2.3.4".data :=
  claim_C6_canonical_roundtrip _ 16909060 (by norm_num) (by decide)

/-! ### Claim C9 -/

/-- C9: `ip_to_int` fails (ValueError, modelled as `none`) whenever the split
on '.' does not give exactly 4 parts; when it gives 4 parts that `int()`
accepts, it returns the combined big-endian value with no octet-range
check. -/
theorem claim_C9_ip_to_int (s : PyStr) :
    ((pySplit '.' s).length ≠ 4 → ip_to_int s = none) ∧
    (∀ p0 p1 p2 p3 d0 d1 d2 d3, pySplit '.' s = [p0, p1, p2, p3] →
      pyInt p0 = some d0 → pyInt p1 = some d1 → pyInt p2 = some d2 →
      pyInt p3 = some d3 →
      ip_to_int s = some ((d0 <<< 24) + (d1 <<< 16) + (d2 <<< 8) + d3)) := by
  constructor
  · intro h
    unfold ip_to_int
    rcases hps : pySplit '.' s with _ | ⟨a, _ | ⟨b, _ | ⟨c, _ | ⟨d, _ | ⟨e, t⟩⟩⟩⟩⟩ <;>
      try rfl
    exact absurd (by rw [hps]; rfl) h
  · intro p0 p1 p2 p3 d0 d1 d2 d3 hps h0 h1 h2 h3
    unfold ip_to_int
    rw [hps]
    simp [h0, h1, h2, h3]

/-- Witness: `"1.2.3"` has 3 parts, so conversion fails; `"999.1.1.1"` has 4
numeric parts, so conversion succeeds even though 999 is out of octet range. -/
theorem claim_C9_witness :
    ip_to_int "1.2.3".data = none ∧
    ip_to_int "999.1.1.1".data = some ((999 <<< 24) + (1 <<< 16) + (1 <<< 8) + 1) ∧
    (999 <<< 24) + (1 <<< 16) + (1 <<< 8) + 1 = 16760504577 := by
  refine ⟨(claim_C9_ip_to_int "1.2.3".data).1 (by decide), ?_, by decide⟩
  exact (claim_C9_ip_to_int "999.1.1.1".data).2 "999".data "1".data "1".data "1".data
    999 1 1 1 (by decide) (by decide) (by decide) (by decide) (by decide)

/-! ### Two-element behaviour of `process_ips` -/

/-- When the second address extends the first (same /24 network, difference
in (0, 6]), the pair becomes the full inclusive range. -/
theorem process_two_fill (a b : PyStr) (ia ib : Nat)
    (ha : ip_to_int a = some ia) (hb : ip_to_int b = some ib)
    (hnet : network b = network a)
    (h1 : 0 < (ib : Int) - (ia : Int)) (h2 : (ib : Int) - (ia : Int) ≤ 6) :
    process_ips [a, b] = some ((List.range' ia (ib + 1 - ia)).map int_to_ip) := by
  have hne : ¬ a = b := by
    rintro rfl
    rw [ha] at hb
    injection hb with hb'
    omega
  have hcond : network b = network a ∧ 0 < (ib : Int) - (ia : Int) ∧
      (ib : Int) - (ia : Int) ≤ 6 := ⟨hnet, h1, h2⟩
  show (do
    let first_int ← ip_to_int a
    processLoop a first_int a a [] [b]) = _
  rw [ha]
  simp only [Option.bind_eq_bind, Option.some_bind, processLoop]
  rw [hb]
  simp only [Option.bind_eq_bind, Option.some_bind]
  rw [if_pos hcond]
  simp only [processLoop, closeSeg]
  rw [if_neg hne]
  simp only [generate_ip_range]
  rw [ha, hb]
  simp

/-- When the pair does not satisfy the fill condition, both addresses pass
through unchanged. -/
theorem process_two_nofill (a b : PyStr) (ia ib : Nat)
    (ha : ip_to_int a = some ia) (hb : ip_to_int b = some ib)
    (hcond : ¬(network b = network a ∧ 0 < (ib : Int) - (ia : Int) ∧
      (ib : Int) - (ia : Int) ≤ 6)) :
    process_ips [a, b] = some [a, b] := by
  show (do
    let first_int ← ip_to_int a
    processLoop a first_int a a [] [b]) = _
  rw [ha]
  simp only [Option.bind_eq_bind, Option.some_bind, processLoop]
  rw [hb]
  simp only [Option.bind_eq_bind, Option.some_bind]
  rw [if_neg hcond]
  simp only [closeSeg, if_pos rfl, Option.some_bind, processLoop]
  simp [closeSeg]

/-! ### Claim C1 -/

/-- C1: for two consecutive addresses in the same /24 network whose integer
difference diff satisfies 0 < diff <= 6, `process_ips` extends the segment
and emits the full inclusive integer range. -/
theorem claim_C1_range_fill (a b : PyStr) (ia ib : Nat)
    (ha : ip_to_int a = some ia) (hb : ip_to_int b = some ib)
    (hnet : network b = network a)
    (h1 : 0 < (ib : Int) - (ia : Int)) (h2 : (ib : Int) - (ia : Int) ≤ 6) :
    process_ips [a, b] = some ((List.range' ia (ib + 1 - ia)).map int_to_ip) :=
  process_two_fill a b ia ib ha hb hnet h1 h2

/-- Witness: `["192.168.1.1", "192.168.1.7"]` (diff = 6) expands to exactly
the seven consecutive addresses. -/
theorem claim_C1_witness :
    process_ips ["192.168.1.1".data, "192.168.1.7".data] =
      some ["192.168.1.1".data, "192.168.1.2".data, "192.168.1.3".data,
        "192.168.1.4".data, "192.168.1.5".data, "192.168.1.6".data,
        "192.168.1.7".data] := by
  rw [claim_C1_range_fill "192.168.1.1".data "192.168.1.7".data 3232235777 3232235783
    (by decide) (by decide) (by decide) (by decide) (by decide)]
  decide

/-! ### Claim C2 -/

/-- C2: a sorted two-element input that does not satisfy the fill condition
(same /24 network and 0 < diff <= 6) is emitted unchanged, with nothing
inserted. -/
theorem claim_C2_no_fill (a b : PyStr) (ia ib : Nat)
    (ha : ip_to_int a = some ia) (hb : ip_to_int b = some ib)
    (hcond : ¬(network b = network a ∧ 0 < (ib : Int) - (ia : Int) ∧
      (ib : Int) - (ia : Int) ≤ 6)) :
    process_ips [a, b] = some [a, b] :=
  process_two_nofill a b ia ib ha hb hcond

/-- Witness: diff = 8 in the same /24 is not filled, and diff = 4 across a
/24 boundary is not filled. -/
theorem claim_C2_witness :
    process_ips ["192.168.1.1".data, "192.168.1.9".data] =
      some ["192.168.1.1".data, "192.168.1.9".data] ∧
    process_ips ["192.168.1.254".data, "192.168.2.2".data] =
      some ["192.168.1.254".data, "192.168.2.2".data] :=
  ⟨claim_C2_no_fill "192.168.1.1".data "192.168.1.9".data 3232235777 3232235785
      (by decide) (by decide) (by decide),
    claim_C2_no_fill "192.168.1.254".data "192.168.2.2".data 3232236030 3232236034
      (by decide) (by decide) (by decide)⟩

/-! ### Claim C3 -/

/-- C3: a consecutive duplicate (difference exactly 0) is not merged: the
segment closes and the duplicate is emitted as its own single-address
entry. -/
theorem claim_C3_duplicate (a : PyStr) (ia : Nat) (ha : ip_to_int a = some ia) :
    process_ips [a, a] = some [a, a] :=
  process_two_nofill a a ia ia ha ha (by
    rintro ⟨-, h1, -⟩
    omega)

/-- Witness: `["10.0.0.5", "10.0.0.5"]` passes through as two entries. -/
theorem claim_C3_witness :
    process_ips ["10.0.0.5".data, "10.0.0.5".data] =
      some ["10.0.0.5".data, "10.0.0.5".data] :=
  claim_C3_duplicate "10.0.0.5".data 167772165 (by decide)

/-! ### Claim C7 -/

/-- C7: the Reader keeps exactly the stripped non-blank lines that pass the
validity test (exactly 4 dot-separated parts, all digits, each in [0,255]),
in input order, and discards everything else; in particular "999.1.1.1" and
"1.2.3" are discarded. -/
theorem claim_C7_reader :
    (∀ lines : List PyStr, read_ip_lines lines =
      (lines.map pyStrip).filter fun ip => !ip.isEmpty && validIP ip) ∧
    validIP "999.1.1.1".data = false ∧ validIP "1.2.3".data = false := by
  refine ⟨fun lines => ?_, by decide, by decide⟩
  induction lines with
  | nil => rfl
  | cons line rest ih =>
    show (let ip := pyStrip line
      if ip.isEmpty then read_ip_lines rest
      else if validIP ip then ip :: read_ip_lines rest
      else read_ip_lines rest) = _
    simp only [List.map_cons, List.filter_cons]
    by_cases he : (pyStrip line).isEmpty
    · simp [he, ih]
    · by_cases hv : validIP (pyStrip line) <;> simp [he, hv, ih]

/-! ### Lemmas about `sort_ips` -/

/-- On a list of Reader-valid addresses, converting every element succeeds
and every value fits in 32 bits. -/
theorem optMap_valid {l : List PyStr} (h : ∀ s ∈ l, validIP s = true) :
    ∃ ints, optMap ip_to_int l = some ints ∧ ∀ v ∈ ints, v < 2 ^ 32 := by
  induction l with
  | nil => exact ⟨[], rfl, by simp⟩
  | cons a as ih =>
    obtain ⟨v, hv, hvlt⟩ := validIP_ip_to_int (h a (List.mem_cons_self a as))
    obtain ⟨ints, hints, hbound⟩ := ih fun s hs => h s (List.mem_cons_of_mem a hs)
    refine ⟨v :: ints, ?_, ?_⟩
    · show (do
        let b ← ip_to_int a
        let bs ← optMap ip_to_int as
        pure (b :: bs)) = some (v :: ints)
      rw [hv, hints]
      rfl
    · intro w hw
      rcases List.mem_cons.mp hw with rfl | hw'
      · exact hvlt
      · exact hbound w hw'

/-- Converting rendered 32-bit values back to integers recovers them all. -/
theorem optMap_int_to_ip {vs : List Nat} (h : ∀ v ∈ vs, v < 2 ^ 32) :
    optMap ip_to_int (vs.map int_to_ip) = some vs := by
  induction vs with
  | nil => rfl
  | cons v tl ih =>
    have hv := ip_to_int_int_to_ip (h v (List.mem_cons_self v tl))
    have htl := ih fun w hw => h w (List.mem_cons_of_mem v hw)
    show (do
      let b ← ip_to_int (int_to_ip v)
      let bs ← optMap ip_to_int (tl.map int_to_ip)
      pure (b :: bs)) = some (v :: tl)
    rw [hv, htl]
    rfl

/-- `sort_ips` on a list whose conversions succeed. -/
theorem sort_ips_eq {l : List PyStr} {ints : List Nat}
    (h : optMap ip_to_int l = some ints) :
    sort_ips l = some ((ints.mergeSort (fun a b => decide (a ≤ b))).map int_to_ip) := by
  show (do
    let ip_ints ← optMap ip_to_int l
    pure ((ip_ints.mergeSort (fun a b => decide (a ≤ b))).map int_to_ip)) = _
  rw [h]
  rfl

/-! ### Claim C8 -/

/-- C8: sorting is idempotent on lists of valid address strings: `sort_ips l`
succeeds, and applying `sort_ips` to its output yields that output again. -/
theorem claim_C8_sort_idem (l : List PyStr) (h : ∀ s ∈ l, validIP s = true) :
    ∃ out, sort_ips l = some out ∧ sort_ips out = some out := by
  obtain ⟨ints, hints, hbound⟩ := optMap_valid h
  have hmem : ∀ v ∈ ints.mergeSort (fun a b => decide (a ≤ b)), v < 2 ^ 32 :=
    fun v hv => hbound v (List.mem_mergeSort.mp hv)
  refine ⟨(ints.mergeSort (fun a b => decide (a ≤ b))).map int_to_ip,
    sort_ips_eq hints, ?_⟩
  rw [sort_ips_eq (optMap_int_to_ip hmem)]
  rw [List.mergeSort_of_sorted
    (List.sorted_mergeSort (fun a b c hab hbc => by simp_all; omega)
      (fun a b => by simp [Nat.le_total]) ints)]

theorem claim_C8_witness :
    ∃ out, sort_ips ["10.0.0.5".data] = some out ∧ sort_ips out = some out :=
  claim_C8_sort_idem ["10.0.0.5".data] (by decide)

/-! ### Claim C10 -/

/-- C10: every string produced by `sort_ips` on valid input is canonical:
it is `int_to_ip` of its own integer value (so leading zeros present in the
input do not survive sorting). -/
theorem claim_C10_canonical (l out : List PyStr) (h : ∀ s ∈ l, validIP s = true)
    (hout : sort_ips l = some out) :
    ∀ t ∈ out, ∃ v, ip_to_int t = some v ∧ int_to_ip v = t := by
  obtain ⟨ints, hints, hbound⟩ := optMap_valid h
  rw [sort_ips_eq hints] at hout
  injection hout with hout'
  subst hout'
  intro t ht
  obtain ⟨v, hv, rfl⟩ := List.mem_map.mp ht
  have hvlt : v < 2 ^ 32 := hbound v (List.mem_mergeSort.mp hv)
  exact ⟨v, ip_to_int_int_to_ip hvlt, rfl⟩

/-- Witness: the Reader-valid input "001.002.003.004" comes out of the
sorter rewritten as the canonical "1.2.3.4", a string different from every
input string. -/
theorem claim_C10_witness :
    sort_ips ["001.002.003.004".data] = some ["1.2.3.4".data] ∧
    "1.2.3.4".data ≠ "001.002.003.004".data ∧
    (∃ v, ip_to_int "1.2.3.4".data = some v ∧ int_to_ip v = "1.2.3.4".data) := by
  have hs : sort_ips ["001.002.003.004".data] = some ["1.2.3.4".data] := by
    rw [@sort_ips_eq ["001.002.003.004".data] [16909060] (by decide)]
    simp only [List.mergeSort_singleton]
    decide
  exact ⟨hs, by decide,
    claim_C10_canonical ["001.002.003.004".data] ["1.2.3.4".data] (by decide) hs
      "1.2.3.4".data (by decide)⟩

/-! ### The monotonicity invariant of `process_ips` -/

theorem ipVal_int_to_ip {v : Nat} (hv : v < 2 ^ 32) : ipVal (int_to_ip v) = v := by
  unfold ipVal
  rw [ip_to_int_int_to_ip hv]
  rfl

/-- Closing a segment emits a non-decreasing list whose values all lie
between the segment's start and end values. -/
theorem closeSeg_emits {s e : PyStr} {vs ve : Nat}
    (hs : ip_to_int s = some vs) (he : ip_to_int e = some ve)
    (hle : vs ≤ ve) (hub : ve < 2 ^ 32) :
    ∃ seg, closeSeg s e = some seg ∧
      List.Pairwise (fun a b => ipVal a ≤ ipVal b) seg ∧
      ∀ t ∈ seg, vs ≤ ipVal t ∧ ipVal t ≤ ve := by
  by_cases heq : s = e
  · subst heq
    rw [hs] at he
    injection he with he'
    subst he'
    refine ⟨[s], by simp [closeSeg], by simp, ?_⟩
    intro t ht
    obtain rfl := List.mem_singleton.mp ht
    simp [ipVal, hs]
  · refine ⟨(List.range' vs (ve + 1 - vs)).map int_to_ip, ?_, ?_, ?_⟩
    · show (if s = e then some [s] else generate_ip_range s e) = _
      rw [if_neg heq]
      show (do
        let start_int ← ip_to_int s
        let end_int ← ip_to_int e
        pure ((List.range' start_int (end_int + 1 - start_int)).map int_to_ip)) = _
      rw [hs, he]
      rfl
    · rw [List.pairwise_map]
      refine (List.pairwise_le_range' vs (ve + 1 - vs)).imp_of_mem ?_
      intro i j hi hj hij
      have hib := List.mem_range'_1.mp hi
      have hjb := List.mem_range'_1.mp hj
      rw [ipVal_int_to_ip (by omega), ipVal_int_to_ip (by omega)]
      exact hij
    · intro t ht
      obtain ⟨i, hi, rfl⟩ := List.mem_map.mp ht
      have hib := List.mem_range'_1.mp hi
      rw [ipVal_int_to_ip (by omega)]
      omega

/-- Loop invariant of `process_ips`: given valid, ascending remaining input
and an accumulated result that is non-decreasing and bounded by the open
segment, the loop succeeds and its full output is non-decreasing. -/
theorem processLoop_pairwise (rest : List PyStr) :
    ∀ (prev : PyStr) (pInt : Nat) (s e : PyStr) (vs ve : Nat) (result : List PyStr),
      ip_to_int prev = some pInt →
      ip_to_int s = some vs → ip_to_int e = some ve →
      vs ≤ ve → ve ≤ pInt → ve < 2 ^ 32 →
      (∀ t ∈ rest, validIP t = true) →
      List.Chain' (fun a b => ipVal a ≤ ipVal b) (prev :: rest) →
      List.Pairwise (fun a b => ipVal a ≤ ipVal b) result →
      (∀ t ∈ result, ipVal t ≤ vs) →
      ∃ out, processLoop prev pInt s e result rest = some out ∧
        List.Pairwise (fun a b => ipVal a ≤ ipVal b) out := by
  induction rest with
  | nil =>
    intro prev pInt s e vs ve result hprev hs he hle hvp hub hvalid hchain hres hresb
    obtain ⟨seg, hseg, hpw, hbnd⟩ := closeSeg_emits hs he hle hub
    refine ⟨result ++ seg, ?_, ?_⟩
    · show (do
        let seg ← closeSeg s e
        pure (result ++ seg)) = _
      rw [hseg]
      rfl
    · rw [List.pairwise_append]
      exact ⟨hres, hpw, fun a ha b hb => le_trans (hresb a ha) (hbnd b hb).1⟩
  | cons current rest' ih =>
    intro prev pInt s e vs ve result hprev hs he hle hvp hub hvalid hchain hres hresb
    obtain ⟨vc, hvc, hvc32⟩ :=
      validIP_ip_to_int (hvalid current (List.mem_cons_self _ _))
    have hpc : pInt ≤ vc := by
      have hr := (List.chain'_cons.mp hchain).1
      rw [ipVal, ipVal, hprev, hvc] at hr
      exact hr
    have hstep : processLoop prev pInt s e result (current :: rest') =
        (if network current = network prev ∧
            0 < (vc : Int) - (pInt : Int) ∧ (vc : Int) - (pInt : Int) ≤ 6 then
          processLoop current vc s current result rest'
        else do
          let seg ← closeSeg s e
          processLoop current vc current current (result ++ seg) rest') := by
      show (do
        let current_int ← ip_to_int current
        if network current = network prev ∧
            0 < (current_int : Int) - (pInt : Int) ∧
            (current_int : Int) - (pInt : Int) ≤ 6 then
          processLoop current current_int s current result rest'
        else do
          let seg ← closeSeg s e
          processLoop current current_int current current (result ++ seg) rest') = _
      rw [hvc]
      rfl
    rw [hstep]
    by_cases hcond : network current = network prev ∧
        0 < (vc : Int) - (pInt : Int) ∧ (vc : Int) - (pInt : Int) ≤ 6
    · rw [if_pos hcond]
      exact ih current vc s current vs vc result hvc hs hvc (by omega) le_rfl hvc32
        (fun t ht => hvalid t (List.mem_cons_of_mem _ ht)) hchain.tail hres hresb
    · rw [if_neg hcond]
      obtain ⟨seg, hseg, hpw, hbnd⟩ := closeSeg_emits hs he hle hub
      rw [hseg]
      simp only [Option.bind_eq_bind, Option.some_bind]
      refine ih current vc current current vc vc (result ++ seg) hvc hvc hvc le_rfl
        le_rfl hvc32 (fun t ht => hvalid t (List.mem_cons_of_mem _ ht)) hchain.tail
        ?_ ?_
      · rw [List.pairwise_append]
        exact ⟨hres, hpw, fun a ha b hb => le_trans (hresb a ha) (hbnd b hb).1⟩
      · intro t ht
        rcases List.mem_append.mp ht with ht' | ht'
        · exact le_trans (hresb t ht') (by omega)
        · exact le_trans (hbnd t ht').2 (by omega)

/-! ### Claim C4 -/

/-- C4: on valid input sorted ascending by 32-bit value, the output of
`process_ips` is non-decreasing in underlying value, and every expanded
segment (`generate_ip_range`) is a gapless contiguous run of consecutive
integer values. -/
theorem claim_C4_invariants :
    (∀ (l out : List PyStr), (∀ s ∈ l, validIP s = true) →
      List.Chain' (fun a b => ipVal a ≤ ipVal b) l →
      process_ips l = some out →
      List.Pairwise (fun a b => ipVal a ≤ ipVal b) out) ∧
    (∀ (s e : PyStr) (vs ve : Nat), ip_to_int s = some vs → ip_to_int e = some ve →
      vs ≤ ve → ve < 2 ^ 32 →
      ∃ seg, generate_ip_range s e = some seg ∧
        seg.map ipVal = List.range' vs (ve + 1 - vs)) := by
  constructor
  · intro l out hvalid hchain hout
    match l with
    | [] =>
      injection hout with h'
      subst h'
      exact List.Pairwise.nil
    | first :: rest =>
      obtain ⟨v1, hv1, hv32⟩ :=
        validIP_ip_to_int (hvalid first (List.mem_cons_self _ _))
      have hp : process_ips (first :: rest) = processLoop first v1 first first [] rest := by
        show (do
          let first_int ← ip_to_int first
          processLoop first first_int first first [] rest) = _
        rw [hv1]
        rfl
      rw [hp] at hout
      obtain ⟨out', hout', hpw⟩ := processLoop_pairwise rest first v1 first first v1 v1 []
        hv1 hv1 hv1 le_rfl le_rfl hv32
        (fun t ht => hvalid t (List.mem_cons_of_mem _ ht)) hchain
        List.Pairwise.nil (by simp)
      rw [hout'] at hout
      injection hout with h'
      subst h'
      exact hpw
  · intro s e vs ve hs he hle hub
    refine ⟨(List.range' vs (ve + 1 - vs)).map int_to_ip, ?_, ?_⟩
    · show (do
        let start_int ← ip_to_int s
        let end_int ← ip_to_int e
        pure ((List.range' start_int (end_int + 1 - start_int)).map int_to_ip)) = _
      rw [hs, he]
      rfl
    · rw [List.map_map]
      have hc : ∀ i ∈ List.range' vs (ve + 1 - vs), (ipVal ∘ int_to_ip) i = id i := by
        intro i hi
        have hib := List.mem_range'_1.mp hi
        exact ipVal_int_to_ip (by omega)
      rw [List.map_congr_left hc, List.map_id]

/-- Witness: a filled segment's output is non-decreasing, and the expansion
of 10.0.0.1-10.0.0.3 is the contiguous integer run from 167772161 to
167772163. -/
theorem claim_C4_witness :
    List.Pairwise (fun a b => ipVal a ≤ ipVal b)
      ["192.168.1.1".data, "192.168.1.2".data, "192.168.1.3".data] ∧
    (∃ seg, generate_ip_range "10.0.0.1".data "10.0.0.3".data = some seg ∧
      seg.map ipVal = List.range' 167772161 (167772163 + 1 - 167772161)) := by
  constructor
  · exact claim_C4_invariants.1 ["192.168.1.1".data, "192.168.1.3".data]
      ["192.168.1.1".data, "192.168.1.2".data, "192.168.1.3".data]
      (by decide)
      (by
        rw [List.chain'_cons]
        exact ⟨by decide, List.chain'_singleton _⟩)
      (by decide)
  · exact claim_C4_invariants.2 "10.0.0.1".data "10.0.0.3".data 167772161 167772163
      (by decide) (by decide) (by decide) (by decide)

end Breakc
